import Mathlib

/-!
# berquist/factorials: `double_factorial` (src/cpp/double_factorials.cpp)

The C++ function

    double double_factorial(double z) {
        return pow(2.0, (1.0 + (2.0 * z) - cos(M_PI * z)) * 0.25) *
               pow(M_PI, (cos(M_PI * z) - 1.0) * 0.25) * boost::math::tgamma((0.5 * z) + 1.0);
    }

is embedded over exact real arithmetic: a `double` is a real number, `M_PI` is
`Real.pi`, `cos` is `Real.cos`, `pow` with a positive base is the real power
`Real.rpow`, and the only fallible operation is the Gamma routine, which raises a
domain error at its poles.  Rounding, overflow and the bit patterns of IEEE-754
doubles are outside this model.
-/

namespace DoubleFactorials

/-- The error kinds a call can raise: the single kind `DomainError`. -/
inductive MathError where
  | DomainError
  deriving DecidableEq, Repr

/-- The poles of the Gamma function: `x` is one of `0, -1, -2, ...`. -/
def isNonPosInt (x : ℝ) : Prop := ∃ m : ℕ, x = -(m : ℝ)

/-- Modelled from the spec: `boost::math::tgamma` is a library routine outside the
repository; the spec describes it as the Gamma function computed by a routine that
raises a domain error on non-positive-integer input (the poles of Gamma). -/
noncomputable def tgamma (x : ℝ) : Except MathError ℝ :=
  open Classical in
  if isNonPosInt x then Except.error MathError.DomainError else Except.ok (Real.Gamma x)

/-- The function `double_factorial` of src/cpp/double_factorials.cpp, lines 9-12:
the product of the two powers and of the Gamma value, the call failing when the
Gamma routine raises. -/
noncomputable def double_factorial (z : ℝ) : Except MathError ℝ := do
  let g ← tgamma ((0.5 * z) + 1.0)
  pure ((2.0 : ℝ) ^ ((1.0 + (2.0 * z) - Real.cos (Real.pi * z)) * 0.25) *
        Real.pi ^ ((Real.cos (Real.pi * z) - 1.0) * 0.25) * g)

/-- The real number a call produced, `0` standing for a raised error; used to speak
of `double_factorial` as a real function near points where it does not raise. -/
def resultValue : Except MathError ℝ → ℝ
  | Except.ok v => v
  | Except.error _ => 0

/-- The closed form as the spec writes it (section 4.1):
`2^((1 + 2z − cos(πz)) / 4) · π^((cos(πz) − 1) / 4) · Γ(z/2 + 1)`. -/
noncomputable def double_factorial_spec (z : ℝ) : ℝ :=
  (2 : ℝ) ^ ((1 + 2 * z - Real.cos (Real.pi * z)) / 4) *
    Real.pi ^ ((Real.cos (Real.pi * z) - 1) / 4) * Real.Gamma (z / 2 + 1)

/-- The classical double factorial as the spec's glossary words it: the product of
all positive integers of the same parity as `n` that are at most `n` (the empty
product, `1`, for `n = 0`). -/
def classical_double_factorial (n : ℕ) : ℕ :=
  ((List.range (n + 1)).filter (fun k => decide (0 < k) && (k % 2 == n % 2))).prod

/-- The value the source's expression has when the Gamma routine returns. -/
noncomputable def formulaValue (z : ℝ) : ℝ :=
  (2 : ℝ) ^ ((1 + 2 * z - Real.cos (Real.pi * z)) * (1 / 4)) *
    Real.pi ^ ((Real.cos (Real.pi * z) - 1) * (1 / 4)) * Real.Gamma (z / 2 + 1)

/-! ## Shared lemmas -/

theorem gammaArg_eq (z : ℝ) : (0.5 * z) + 1.0 = z / 2 + 1 := by
  norm_num
  ring

theorem double_factorial_unfold (z : ℝ) :
    double_factorial z =
      (open Classical in
        if isNonPosInt (z / 2 + 1) then Except.error MathError.DomainError
        else Except.ok (formulaValue z)) := by
  unfold double_factorial tgamma formulaValue
  rw [gammaArg_eq]
  by_cases h : isNonPosInt (z / 2 + 1)
  · simp only [h, if_true]
    rfl
  · simp only [h, if_false]
    show Except.ok _ = Except.ok _
    congr 1
    norm_num

theorem formulaValue_zero : formulaValue 0 = 1 := by
  unfold formulaValue
  simp

theorem formulaValue_one : formulaValue 1 = 1 := by
  unfold formulaValue
  have hg : Real.Gamma ((1 : ℝ) / 2 + 1) = 1 / 2 * √Real.pi := by
    rw [Real.Gamma_add_one (by norm_num), Real.Gamma_one_half_eq]
  rw [hg]
  have h2 : (1 + 2 * (1 : ℝ) - Real.cos (Real.pi * 1)) * (1 / 4) = 1 := by
    simp only [mul_one, Real.cos_pi]; norm_num
  have h3 : (Real.cos (Real.pi * 1) - 1) * (1 / 4) = -(1 / 2) := by
    simp only [mul_one, Real.cos_pi]; norm_num
  rw [h2, h3, Real.rpow_one, Real.rpow_neg Real.pi_pos.le, ← Real.sqrt_eq_rpow]
  have : √Real.pi ≠ 0 := (Real.sqrt_pos.mpr Real.pi_pos).ne'
  field_simp

theorem cos_pi_mul_sub_two (z : ℝ) : Real.cos (Real.pi * (z - 2)) = Real.cos (Real.pi * z) := by
  have : Real.pi * (z - 2) = Real.pi * z - 2 * Real.pi := by ring
  rw [this, Real.cos_sub_two_pi]

theorem cos_pi_mul_sub_one (z : ℝ) : Real.cos (Real.pi * (z - 1)) = -Real.cos (Real.pi * z) := by
  have : Real.pi * (z - 1) = Real.pi * z - Real.pi := by ring
  rw [this, Real.cos_sub_pi]

theorem formulaValue_rec (z : ℝ) (hz : z ≠ 0) : formulaValue z = z * formulaValue (z - 2) := by
  unfold formulaValue
  rw [cos_pi_mul_sub_two]
  have hg : Real.Gamma (z / 2 + 1) = z / 2 * Real.Gamma ((z - 2) / 2 + 1) := by
    rw [Real.Gamma_add_one (by simpa using hz)]
    congr 2; ring
  have hp : (2 : ℝ) ^ ((1 + 2 * z - Real.cos (Real.pi * z)) * (1 / 4)) =
      2 * (2 : ℝ) ^ ((1 + 2 * (z - 2) - Real.cos (Real.pi * z)) * (1 / 4)) := by
    have : (1 + 2 * z - Real.cos (Real.pi * z)) * (1 / 4) =
        1 + (1 + 2 * (z - 2) - Real.cos (Real.pi * z)) * (1 / 4) := by ring
    rw [this, Real.rpow_add two_pos, Real.rpow_one]
  rw [hg, hp]
  ring

theorem formulaValue_mul_pred (z : ℝ) :
    formulaValue z * formulaValue (z - 1) = Real.Gamma (z + 1) := by
  unfold formulaValue
  rw [cos_pi_mul_sub_one]
  have hG := Real.Gamma_mul_Gamma_add_half (z / 2 + 1 / 2)
  have e1 : z / 2 + 1 / 2 + 1 / 2 = z / 2 + 1 := by ring
  have e2 : 2 * (z / 2 + 1 / 2) = z + 1 := by ring
  have e3 : (z - 1) / 2 + 1 = z / 2 + 1 / 2 := by ring
  have e4 : 1 - (z + 1) = -z := by ring
  rw [e1, e2, e4] at hG
  rw [e3]
  set c := Real.cos (Real.pi * z)
  have hp2 : (2 : ℝ) ^ ((1 + 2 * z - c) * (1 / 4)) * (2 : ℝ) ^ ((1 + 2 * (z - 1) - -c) * (1 / 4))
      = (2 : ℝ) ^ z := by
    rw [← Real.rpow_add two_pos]; congr 1; ring
  have hpp : Real.pi ^ ((c - 1) * (1 / 4)) * Real.pi ^ ((-c - 1) * (1 / 4))
      = (√Real.pi)⁻¹ := by
    rw [← Real.rpow_add Real.pi_pos, Real.sqrt_eq_rpow, ← Real.rpow_neg Real.pi_pos.le]
    congr 1; ring
  have hs : √Real.pi ≠ 0 := (Real.sqrt_pos.mpr Real.pi_pos).ne'
  have h2z : (2 : ℝ) ^ z * (2 : ℝ) ^ (-z) = 1 := by
    rw [← Real.rpow_add two_pos]; simp
  calc _ = ((2 : ℝ) ^ ((1 + 2 * z - c) * (1 / 4)) * (2 : ℝ) ^ ((1 + 2 * (z - 1) - -c) * (1 / 4)))
        * (Real.pi ^ ((c - 1) * (1 / 4)) * Real.pi ^ ((-c - 1) * (1 / 4)))
        * (Real.Gamma (z / 2 + 1 / 2) * Real.Gamma (z / 2 + 1)) := by ring
    _ = (2 : ℝ) ^ z * (√Real.pi)⁻¹ * (Real.Gamma (z + 1) * 2 ^ (-z) * √Real.pi) := by
        rw [hp2, hpp, hG]
    _ = ((2 : ℝ) ^ z * (2 : ℝ) ^ (-z)) * Real.Gamma (z + 1) * ((√Real.pi)⁻¹ * √Real.pi) := by ring
    _ = Real.Gamma (z + 1) := by
        rw [h2z, inv_mul_cancel₀ hs]; ring

theorem analyticAt_realGamma_of_pos {x : ℝ} (hx : 0 < x) : AnalyticAt ℝ Real.Gamma x := by
  have hopen : IsOpen {s : ℂ | 0 < s.re} := isOpen_lt continuous_const Complex.continuous_re
  have hd : DifferentiableOn ℂ Complex.Gamma {s : ℂ | 0 < s.re} := by
    intro s hs
    refine (Complex.differentiableAt_Gamma s ?_).differentiableWithinAt
    intro m hm
    have hre : s.re = -(m : ℝ) := by rw [hm]; simp
    have h0 : (0 : ℝ) ≤ m := Nat.cast_nonneg m
    have hs' : 0 < s.re := hs
    linarith
  have hmem : {s : ℂ | 0 < s.re} ∈ nhds (x : ℂ) := hopen.mem_nhds (by simpa using hx)
  have hC : AnalyticAt ℂ Complex.Gamma (x : ℂ) := hd.analyticAt hmem
  have hR : AnalyticAt ℝ Complex.Gamma (Complex.ofRealCLM x) := hC.restrictScalars
  have h1 : AnalyticAt ℝ (fun y : ℝ => Complex.Gamma (Complex.ofRealCLM y)) x :=
    hR.comp (Complex.ofRealCLM.analyticAt x)
  have h2 : AnalyticAt ℝ (fun y : ℝ => Complex.reCLM (Complex.Gamma (Complex.ofRealCLM y))) x :=
    (Complex.reCLM.analyticAt _).comp h1
  exact h2

theorem contDiffAt_formulaValue {z : ℝ} (hz : -2 < z) (n : WithTop ℕ∞) :
    ContDiffAt ℝ n formulaValue z := by
  unfold formulaValue
  have hc : ContDiffAt ℝ n (fun y : ℝ => Real.cos (Real.pi * y)) z :=
    (contDiffAt_const.mul contDiffAt_id).cos
  have he1 : ContDiffAt ℝ n
      (fun y : ℝ => (1 + 2 * y - Real.cos (Real.pi * y)) * (1 / 4)) z :=
    ((contDiffAt_const.add (contDiffAt_const.mul contDiffAt_id)).sub hc).mul contDiffAt_const
  have he2 : ContDiffAt ℝ n (fun y : ℝ => (Real.cos (Real.pi * y) - 1) * (1 / 4)) z :=
    (hc.sub contDiffAt_const).mul contDiffAt_const
  have hp1 : ContDiffAt ℝ n
      (fun y : ℝ => (2 : ℝ) ^ ((1 + 2 * y - Real.cos (Real.pi * y)) * (1 / 4))) z :=
    ContDiffAt.rpow contDiffAt_const he1 two_ne_zero
  have hp2 : ContDiffAt ℝ n
      (fun y : ℝ => Real.pi ^ ((Real.cos (Real.pi * y) - 1) * (1 / 4))) z :=
    ContDiffAt.rpow contDiffAt_const he2 Real.pi_ne_zero
  have harg : ContDiffAt ℝ n (fun y : ℝ => y / 2 + 1) z :=
    (contDiffAt_id.div_const 2).add contDiffAt_const
  have hpos : (0 : ℝ) < z / 2 + 1 := by linarith
  have hG : ContDiffAt ℝ n Real.Gamma (z / 2 + 1) :=
    (analyticAt_realGamma_of_pos hpos).contDiffAt
  have hg : ContDiffAt ℝ n (Real.Gamma ∘ fun y : ℝ => y / 2 + 1) z :=
    hG.comp z harg
  exact (hp1.mul hp2).mul hg

theorem not_isNonPosInt_of_pos {x : ℝ} (hx : 0 < x) : ¬ isNonPosInt x := by
  rintro ⟨m, hm⟩
  have h0 : (0 : ℝ) ≤ m := Nat.cast_nonneg m
  linarith

theorem isNonPosInt_iff_int (x : ℝ) : isNonPosInt x ↔ ∃ n : ℤ, n ≤ 0 ∧ x = n := by
  constructor
  · rintro ⟨m, hm⟩
    exact ⟨-(m : ℤ), by omega, by rw [hm]; push_cast; ring⟩
  · rintro ⟨n, hn, hx⟩
    refine ⟨(-n).toNat, ?_⟩
    have h : (((-n).toNat : ℤ) : ℝ) = ((-n : ℤ) : ℝ) := by
      congr 1
      exact Int.toNat_of_nonneg (by omega)
    rw [hx]
    have h' : (((-n).toNat : ℕ) : ℝ) = -(n : ℝ) := by
      rw [← Int.cast_natCast, h]; push_cast; ring
    rw [h']; ring

/-- The Gamma argument `z/2 + 1` is a pole exactly when `z` is a negative even integer. -/
theorem pole_iff_negEven (z : ℝ) :
    isNonPosInt (z / 2 + 1) ↔ ∃ n : ℤ, n < 0 ∧ Even n ∧ z = n := by
  rw [isNonPosInt_iff_int]
  constructor
  · rintro ⟨k, hk, hz⟩
    refine ⟨2 * (k - 1), by omega, ⟨k - 1, by ring⟩, ?_⟩
    push_cast
    linarith
  · rintro ⟨n, hn, ⟨r, hr⟩, hz⟩
    refine ⟨r + 1, by omega, ?_⟩
    rw [hz, hr]; push_cast; ring

/-- The Gamma argument of `double_factorial (z - 2)` is a pole exactly when `z` is a
non-positive even integer. -/
theorem pole_sub_two_iff (z : ℝ) :
    isNonPosInt ((z - 2) / 2 + 1) ↔ ∃ n : ℤ, n ≤ 0 ∧ Even n ∧ z = n := by
  rw [pole_iff_negEven]
  constructor
  · rintro ⟨n, hn, ⟨r, hr⟩, hz⟩
    refine ⟨n + 2, by omega, ⟨r + 1, by omega⟩, ?_⟩
    push_cast
    linarith
  · rintro ⟨n, hn, ⟨r, hr⟩, hz⟩
    refine ⟨n - 2, by omega, ⟨r - 1, by omega⟩, ?_⟩
    rw [hz]; push_cast; ring

/-- The Gamma argument of `double_factorial (z - 1)` is a pole exactly when `z` is a
negative odd integer. -/
theorem pole_sub_one_iff (z : ℝ) :
    isNonPosInt ((z - 1) / 2 + 1) ↔ ∃ n : ℤ, n < 0 ∧ Odd n ∧ z = n := by
  rw [pole_iff_negEven]
  constructor
  · rintro ⟨n, hn, ⟨r, hr⟩, hz⟩
    refine ⟨n + 1, by omega, ⟨r, by omega⟩, ?_⟩
    push_cast
    linarith
  · rintro ⟨n, hn, ⟨r, hr⟩, hz⟩
    refine ⟨n - 1, by omega, ⟨r, by omega⟩, ?_⟩
    rw [hz]; push_cast; ring

theorem double_factorial_ok {z : ℝ} (h : ¬ isNonPosInt (z / 2 + 1)) :
    double_factorial z = Except.ok (formulaValue z) := by
  rw [double_factorial_unfold]
  simp only [h, if_false]

theorem double_factorial_error {z : ℝ} (h : isNonPosInt (z / 2 + 1)) :
    double_factorial z = Except.error MathError.DomainError := by
  rw [double_factorial_unfold]
  simp only [h, if_true]

theorem classical_double_factorial_add_two (n : ℕ) :
    classical_double_factorial (n + 2) = (n + 2) * classical_double_factorial n := by
  unfold classical_double_factorial
  have hpar : ∀ k : ℕ, (decide (0 < k) && (k % 2 == (n + 2) % 2))
      = (decide (0 < k) && (k % 2 == n % 2)) := by
    intro k
    rw [Nat.add_mod_right]
  simp only [hpar]
  rw [List.range_succ, List.range_succ, List.filter_append, List.filter_append]
  have hp1 : (decide (0 < n + 1) && ((n + 1) % 2 == n % 2)) = false := by
    have : (n + 1) % 2 ≠ n % 2 := by omega
    simp [this]
  have hp2 : (decide (0 < n + 1 + 1) && ((n + 1 + 1) % 2 == n % 2)) = true := by
    have : (n + 1 + 1) % 2 = n % 2 := by omega
    simp [this]
  have h1 : List.filter (fun k => decide (0 < k) && (k % 2 == n % 2)) [n + 1] = [] := by
    rw [List.filter_cons_of_neg (by simp only [hp1]; decide), List.filter_nil]
  have h2 : List.filter (fun k => decide (0 < k) && (k % 2 == n % 2)) [n + 1 + 1] = [n + 2] := by
    rw [List.filter_cons_of_pos (by simp only [hp2]), List.filter_nil]
  rw [h1, h2, List.append_nil, List.prod_append]
  simp [mul_comm]

theorem formulaValue_natCast (n : ℕ) :
    formulaValue (n : ℝ) = (classical_double_factorial n : ℝ) ∧
      formulaValue ((n : ℝ) + 1) = (classical_double_factorial (n + 1) : ℝ) := by
  induction n with
  | zero =>
    refine ⟨?_, ?_⟩
    · have c0 : classical_double_factorial 0 = 1 := by decide
      rw [Nat.cast_zero, formulaValue_zero, c0, Nat.cast_one]
    · have c1 : classical_double_factorial (0 + 1) = 1 := by decide
      rw [Nat.cast_zero, zero_add, formulaValue_one, c1, Nat.cast_one]
  | succ k ih =>
    refine ⟨by simpa using ih.2, ?_⟩
    have hne : ((k : ℝ) + 1 + 1) ≠ 0 := by positivity
    have hrec := formulaValue_rec ((k : ℝ) + 1 + 1) hne
    have hsub : (k : ℝ) + 1 + 1 - 2 = k := by ring
    rw [hsub, ih.1] at hrec
    rw [Nat.cast_add, Nat.cast_one, hrec, classical_double_factorial_add_two]
    push_cast
    ring

theorem eventually_double_factorial_eq {z : ℝ} (hz : -2 < z) :
    (fun y => resultValue (double_factorial y)) =ᶠ[nhds z] formulaValue := by
  have hmem : Set.Ioi (-2 : ℝ) ∈ nhds z := Ioi_mem_nhds hz
  filter_upwards [hmem] with y hy
  have hy' : (-2 : ℝ) < y := hy
  rw [double_factorial_ok (not_isNonPosInt_of_pos (by linarith))]
  rfl

theorem classical_double_factorial_eq_doubleFactorial (n : ℕ) :
    classical_double_factorial n = Nat.doubleFactorial n ∧
      classical_double_factorial (n + 1) = Nat.doubleFactorial (n + 1) := by
  induction n with
  | zero => exact ⟨by decide, by decide⟩
  | succ k ih =>
    refine ⟨ih.2, ?_⟩
    rw [classical_double_factorial_add_two, Nat.doubleFactorial_add_two, ih.1]

theorem formulaValue_neg_one : formulaValue (-1) = 1 := by
  have h := formulaValue_rec 1 one_ne_zero
  rw [formulaValue_one] at h
  have e : (1 : ℝ) - 2 = -1 := by norm_num
  rw [e] at h
  linarith

theorem formulaValue_neg_three : formulaValue (-3) = -1 := by
  have h := formulaValue_rec (-1) (by norm_num)
  rw [formulaValue_neg_one] at h
  have e : (-1 : ℝ) - 2 = -3 := by norm_num
  rw [e] at h
  linarith

theorem formulaValue_neg_five : formulaValue (-5) = 1 / 3 := by
  have h := formulaValue_rec (-3) (by norm_num)
  rw [formulaValue_neg_three] at h
  have e : (-3 : ℝ) - 2 = -5 := by norm_num
  rw [e] at h
  linarith

theorem not_pole_of_odd {n : ℤ} (hn : Odd n) : ¬ isNonPosInt ((n : ℝ) / 2 + 1) := by
  rw [pole_iff_negEven]
  rintro ⟨m, -, hm, hz⟩
  have : n = m := by exact_mod_cast hz
  subst this
  exact (Int.not_even_iff_odd.mpr hn) hm

theorem cos_pi_mul_even {n : ℤ} (hn : Even n) : Real.cos (Real.pi * (n : ℝ)) = 1 := by
  obtain ⟨r, rfl⟩ := hn
  have e : Real.pi * ((r + r : ℤ) : ℝ) = (r : ℝ) * (2 * Real.pi) := by push_cast; ring
  rw [e, Real.cos_int_mul_two_pi]

theorem cos_pi_mul_odd {n : ℤ} (hn : Odd n) : Real.cos (Real.pi * (n : ℝ)) = -1 := by
  obtain ⟨r, rfl⟩ := hn
  have e : Real.pi * ((2 * r + 1 : ℤ) : ℝ) = (r : ℝ) * (2 * Real.pi) + Real.pi := by
    push_cast; ring
  rw [e, Real.cos_add_pi, Real.cos_int_mul_two_pi]

/-! ## Claims -/

/-- C1: for every non-negative integer `n`, `double_factorial n` returns the classical
double factorial of `n` (the product of the positive integers of the parity of `n`
that are at most `n`, `1` for `n = 0`); in particular it returns
1, 1, 2, 3, 8, 15, 48, 105, 384 for `n = 0, ..., 8`. -/
theorem double_factorial_natCast_eq_classical :
    (∀ n : ℕ, double_factorial (n : ℝ) = Except.ok (classical_double_factorial n : ℝ)) ∧
      double_factorial 0 = Except.ok 1 ∧ double_factorial 1 = Except.ok 1 ∧
      double_factorial 2 = Except.ok 2 ∧ double_factorial 3 = Except.ok 3 ∧
      double_factorial 4 = Except.ok 8 ∧ double_factorial 5 = Except.ok 15 ∧
      double_factorial 6 = Except.ok 48 ∧ double_factorial 7 = Except.ok 105 ∧
      double_factorial 8 = Except.ok 384 := by
  have hgen : ∀ n : ℕ,
      double_factorial (n : ℝ) = Except.ok (classical_double_factorial n : ℝ) := by
    intro n
    have hpos : (0 : ℝ) < (n : ℝ) / 2 + 1 := by positivity
    rw [double_factorial_ok (not_isNonPosInt_of_pos hpos), (formulaValue_natCast n).1]
  refine ⟨hgen, ?_, ?_, ?_, ?_, ?_, ?_, ?_, ?_, ?_⟩
  · simpa [show classical_double_factorial 0 = 1 from by decide] using hgen 0
  · simpa [show classical_double_factorial 1 = 1 from by decide] using hgen 1
  · simpa [show classical_double_factorial 2 = 2 from by decide] using hgen 2
  · simpa [show classical_double_factorial 3 = 3 from by decide] using hgen 3
  · simpa [show classical_double_factorial 4 = 8 from by decide] using hgen 4
  · simpa [show classical_double_factorial 5 = 15 from by decide] using hgen 5
  · simpa [show classical_double_factorial 6 = 48 from by decide] using hgen 6
  · simpa [show classical_double_factorial 7 = 105 from by decide] using hgen 7
  · simpa [show classical_double_factorial 8 = 384 from by decide] using hgen 8

/-- C2: at every real `z` whose Gamma argument `0.5 z + 1` is not a pole, the value
`double_factorial z` returns is the spec's closed form
`2^((1 + 2z - cos(pi z))/4) * pi^((cos(pi z) - 1)/4) * Gamma(z/2 + 1)`, the code's two
exponents and its Gamma argument being the spec's expressions. -/
theorem double_factorial_eq_spec (z : ℝ) (h : ¬ isNonPosInt ((0.5 * z) + 1.0)) :
    double_factorial z = Except.ok (double_factorial_spec z) ∧
      (1.0 + (2.0 * z) - Real.cos (Real.pi * z)) * 0.25
        = (1 + 2 * z - Real.cos (Real.pi * z)) / 4 ∧
      (Real.cos (Real.pi * z) - 1.0) * 0.25 = (Real.cos (Real.pi * z) - 1) / 4 ∧
      (0.5 * z) + 1.0 = z / 2 + 1 := by
  rw [gammaArg_eq] at h
  refine ⟨?_, ?_, ?_, gammaArg_eq z⟩
  · rw [double_factorial_ok h]
    unfold formulaValue double_factorial_spec
    simp only [mul_one_div]
  · norm_num
    ring
  · norm_num
    ring

/-- Witness of C2 at `z = 1`, where the Gamma argument is `1.5`. -/
theorem double_factorial_eq_spec_witness :
    double_factorial 1 = Except.ok (double_factorial_spec 1) ∧
      (1.0 + (2.0 * (1 : ℝ)) - Real.cos (Real.pi * 1)) * 0.25
        = (1 + 2 * (1 : ℝ) - Real.cos (Real.pi * 1)) / 4 ∧
      (Real.cos (Real.pi * 1) - 1.0) * 0.25 = (Real.cos (Real.pi * 1) - 1) / 4 ∧
      (0.5 * (1 : ℝ)) + 1.0 = (1 : ℝ) / 2 + 1 :=
  double_factorial_eq_spec 1 (not_isNonPosInt_of_pos (by norm_num))

/-- C3: at the negative odd integers -1, -3 and -5 the call returns a value without
raising, and the values are `1`, `-1` and `1/3`. -/
theorem double_factorial_neg_odd_values :
    double_factorial (-1) = Except.ok 1 ∧ double_factorial (-3) = Except.ok (-1) ∧
      double_factorial (-5) = Except.ok (1 / 3) := by
  have h1 : ¬ isNonPosInt ((-1 : ℝ) / 2 + 1) := not_isNonPosInt_of_pos (by norm_num)
  have h3 : ¬ isNonPosInt ((-3 : ℝ) / 2 + 1) := by
    simpa using @not_pole_of_odd (-3) (by decide)
  have h5 : ¬ isNonPosInt ((-5 : ℝ) / 2 + 1) := by
    simpa using @not_pole_of_odd (-5) (by decide)
  refine ⟨?_, ?_, ?_⟩
  · rw [double_factorial_ok h1, formulaValue_neg_one]
  · rw [double_factorial_ok h3, formulaValue_neg_three]
  · rw [double_factorial_ok h5, formulaValue_neg_five]

/-- C4: with the Gamma routine raising a domain error exactly at the non-positive
integers, `double_factorial z` raises `DomainError` if and only if `z` is a negative
even integer, and at every other real `z` it returns a value. -/
theorem double_factorial_error_iff (z : ℝ) :
    (double_factorial z = Except.error MathError.DomainError
        ↔ ∃ n : ℤ, n < 0 ∧ Even n ∧ z = n) ∧
      ((¬ ∃ n : ℤ, n < 0 ∧ Even n ∧ z = n) → ∃ v : ℝ, double_factorial z = Except.ok v) := by
  rw [← pole_iff_negEven]
  constructor
  · constructor
    · intro he
      by_contra hp
      rw [double_factorial_ok hp] at he
      cases he
    · exact double_factorial_error
  · intro hp
    exact ⟨formulaValue z, double_factorial_ok hp⟩

/-- Witness of C4: the call raises at `z = -4` and returns at `z = -3`. -/
theorem double_factorial_error_iff_witness :
    double_factorial (-4) = Except.error MathError.DomainError ∧
      ∃ v : ℝ, double_factorial (-3) = Except.ok v := by
  refine ⟨(double_factorial_error_iff (-4)).1.2 ⟨-4, by decide, by decide, by norm_num⟩,
    (double_factorial_error_iff (-3)).2 ?_⟩
  rintro ⟨n, -, hn, hz⟩
  have h3 : n = -3 := by exact_mod_cast hz.symm
  subst h3
  exact absurd hn (by decide)

/-- C5 fails as stated: at the negative odd integer `n = -3` the two calls return `-1`
and `1/3`, whose product is `-1/3`, not `-3`. -/
theorem double_factorial_neg_three_product :
    double_factorial (-3) = Except.ok (-1) ∧ double_factorial (-3 - 2) = Except.ok (1 / 3) ∧
      ¬ ∃ a b : ℝ, double_factorial (-3) = Except.ok a ∧
          double_factorial (-3 - 2) = Except.ok b ∧ a * b = -3 := by
  have h3 : ¬ isNonPosInt ((-3 : ℝ) / 2 + 1) := by
    simpa using @not_pole_of_odd (-3) (by decide)
  have h5 : ¬ isNonPosInt ((-5 : ℝ) / 2 + 1) := by
    simpa using @not_pole_of_odd (-5) (by decide)
  have e : (-3 : ℝ) - 2 = -5 := by norm_num
  have v3 : double_factorial (-3) = Except.ok (-1) := by
    rw [double_factorial_ok h3, formulaValue_neg_three]
  have v5 : double_factorial (-3 - 2) = Except.ok (1 / 3) := by
    rw [e, double_factorial_ok h5, formulaValue_neg_five]
  refine ⟨v3, v5, ?_⟩
  rintro ⟨a, b, ha, hb, hab⟩
  rw [v3] at ha
  rw [v5] at hb
  injection ha with ha
  injection hb with hb
  rw [← ha, ← hb] at hab
  norm_num at hab

/-- C5, amended: for every negative odd integer `n` both `double_factorial n` and
`double_factorial (n - 2)` return, and the values satisfy
`double_factorial n = n * double_factorial (n - 2)`. -/
theorem double_factorial_neg_odd_rec (n : ℤ) (hneg : n < 0) (hodd : Odd n) :
    ∃ a b : ℝ, double_factorial (n : ℝ) = Except.ok a ∧
      double_factorial ((n : ℝ) - 2) = Except.ok b ∧ a = (n : ℝ) * b := by
  have hodd2 : Odd (n - 2) := by
    obtain ⟨r, hr⟩ := hodd
    exact ⟨r - 1, by omega⟩
  have h1 : ¬ isNonPosInt ((n : ℝ) / 2 + 1) := not_pole_of_odd hodd
  have h2 : ¬ isNonPosInt (((n : ℝ) - 2) / 2 + 1) := by
    have := not_pole_of_odd hodd2
    push_cast at this
    exact this
  have hne : (n : ℝ) ≠ 0 := by
    have : n ≠ 0 := by omega
    exact_mod_cast this
  exact ⟨formulaValue n, formulaValue ((n : ℝ) - 2), double_factorial_ok h1,
    double_factorial_ok h2, formulaValue_rec _ hne⟩

/-- Witness of the amended C5 at `n = -3`. -/
theorem double_factorial_neg_odd_rec_witness :
    ∃ a b : ℝ, double_factorial ((-3 : ℤ) : ℝ) = Except.ok a ∧
      double_factorial (((-3 : ℤ) : ℝ) - 2) = Except.ok b ∧ a = ((-3 : ℤ) : ℝ) * b :=
  double_factorial_neg_odd_rec (-3) (by decide) (by decide)

/-- C6: at every real `z ≥ 0` the call returns a value without raising, and
`double_factorial`, as a real function, is continuously differentiable of every
order at `z` (infinitely differentiable, and analytic), hence continuous and
differentiable there. -/
theorem double_factorial_smooth_of_nonneg (z : ℝ) (hz : 0 ≤ z) :
    (∃ v : ℝ, double_factorial z = Except.ok v) ∧
      (∀ n : WithTop ℕ∞, ContDiffAt ℝ n (fun y => resultValue (double_factorial y)) z) ∧
      ContinuousAt (fun y => resultValue (double_factorial y)) z ∧
      DifferentiableAt ℝ (fun y => resultValue (double_factorial y)) z := by
  have hz2 : (-2 : ℝ) < z := by linarith
  have hsm : ∀ n : WithTop ℕ∞,
      ContDiffAt ℝ n (fun y => resultValue (double_factorial y)) z := fun n =>
    (contDiffAt_formulaValue hz2 n).congr_of_eventuallyEq (eventually_double_factorial_eq hz2)
  refine ⟨⟨formulaValue z, double_factorial_ok (not_isNonPosInt_of_pos (by linarith))⟩,
    hsm, (hsm 0).continuousAt, (hsm 1).differentiableAt le_rfl⟩

/-- Witness of C6 at `z = 0`. -/
theorem double_factorial_smooth_of_nonneg_witness :
    (∃ v : ℝ, double_factorial 0 = Except.ok v) ∧
      (∀ n : WithTop ℕ∞, ContDiffAt ℝ n (fun y => resultValue (double_factorial y)) 0) ∧
      ContinuousAt (fun y => resultValue (double_factorial y)) 0 ∧
      DifferentiableAt ℝ (fun y => resultValue (double_factorial y)) 0 :=
  double_factorial_smooth_of_nonneg 0 le_rfl

/-- C8: at an even integer `z ≥ 0` the cosine is `1`, the pi factor is exactly `1` and
the call returns `2^(z/2) * Gamma(z/2 + 1)`; at every odd integer `z` the cosine is
`-1` and the call returns `2^((z+1)/2) * pi^(-1/2) * Gamma(z/2 + 1)`. -/
theorem double_factorial_parity (n : ℤ) :
    (Even n → 0 ≤ n →
        Real.cos (Real.pi * (n : ℝ)) = 1 ∧
        Real.pi ^ ((Real.cos (Real.pi * (n : ℝ)) - 1.0) * 0.25) = 1 ∧
        double_factorial (n : ℝ)
          = Except.ok ((2 : ℝ) ^ ((n : ℝ) / 2) * Real.Gamma ((n : ℝ) / 2 + 1))) ∧
      (Odd n →
        Real.cos (Real.pi * (n : ℝ)) = -1 ∧
        double_factorial (n : ℝ)
          = Except.ok ((2 : ℝ) ^ (((n : ℝ) + 1) / 2) * Real.pi ^ (-(1 / 2) : ℝ)
              * Real.Gamma ((n : ℝ) / 2 + 1))) := by
  constructor
  · intro he h0
    have hc := cos_pi_mul_even he
    have hpos : (0 : ℝ) < (n : ℝ) / 2 + 1 := by
      have : (0 : ℝ) ≤ n := by exact_mod_cast h0
      linarith
    refine ⟨hc, ?_, ?_⟩
    · rw [hc]; norm_num
    · rw [double_factorial_ok (not_isNonPosInt_of_pos hpos)]
      unfold formulaValue
      rw [hc]
      have e1 : (1 + 2 * (n : ℝ) - 1) * (1 / 4) = (n : ℝ) / 2 := by ring
      have e2 : ((1 : ℝ) - 1) * (1 / 4) = 0 := by ring
      rw [e1, e2, Real.rpow_zero, mul_one]
  · intro ho
    have hc := cos_pi_mul_odd ho
    refine ⟨hc, ?_⟩
    rw [double_factorial_ok (not_pole_of_odd ho)]
    unfold formulaValue
    rw [hc]
    have e1 : (1 + 2 * (n : ℝ) - -1) * (1 / 4) = ((n : ℝ) + 1) / 2 := by ring
    have e2 : ((-1 : ℝ) - 1) * (1 / 4) = -(1 / 2) := by ring
    rw [e1, e2]

/-- Witness of C8 at the even integer `4` and the odd integer `-3`. -/
theorem double_factorial_parity_witness :
    (Real.cos (Real.pi * ((4 : ℤ) : ℝ)) = 1 ∧
        Real.pi ^ ((Real.cos (Real.pi * ((4 : ℤ) : ℝ)) - 1.0) * 0.25) = 1 ∧
        double_factorial ((4 : ℤ) : ℝ)
          = Except.ok ((2 : ℝ) ^ (((4 : ℤ) : ℝ) / 2) * Real.Gamma (((4 : ℤ) : ℝ) / 2 + 1))) ∧
      (Real.cos (Real.pi * ((-3 : ℤ) : ℝ)) = -1 ∧
        double_factorial ((-3 : ℤ) : ℝ)
          = Except.ok ((2 : ℝ) ^ ((((-3 : ℤ) : ℝ) + 1) / 2) * Real.pi ^ (-(1 / 2) : ℝ)
              * Real.Gamma (((-3 : ℤ) : ℝ) / 2 + 1))) :=
  ⟨(double_factorial_parity 4).1 (by decide) (by decide),
    (double_factorial_parity (-3)).2 (by decide)⟩

/-- C9: for every real `z` that is not a non-positive even integer, both
`double_factorial z` and `double_factorial (z - 2)` return without raising and
`double_factorial z = z * double_factorial (z - 2)`. -/
theorem double_factorial_rec (z : ℝ) (hz : ¬ ∃ n : ℤ, n ≤ 0 ∧ Even n ∧ z = n) :
    ∃ a b : ℝ, double_factorial z = Except.ok a ∧ double_factorial (z - 2) = Except.ok b ∧
      a = z * b := by
  have h2 : ¬ isNonPosInt ((z - 2) / 2 + 1) := by
    rw [pole_sub_two_iff]; exact hz
  have h1 : ¬ isNonPosInt (z / 2 + 1) := by
    rw [pole_iff_negEven]
    rintro ⟨n, hn, he, hzn⟩
    exact hz ⟨n, hn.le, he, hzn⟩
  have hne : z ≠ 0 := by
    rintro rfl
    exact hz ⟨0, le_rfl, by decide, by norm_num⟩
  exact ⟨formulaValue z, formulaValue (z - 2), double_factorial_ok h1,
    double_factorial_ok h2, formulaValue_rec z hne⟩

/-- Witness of C9 at `z = 1/2`. -/
theorem double_factorial_rec_witness :
    ∃ a b : ℝ, double_factorial (1 / 2) = Except.ok a ∧
      double_factorial (1 / 2 - 2) = Except.ok b ∧ a = 1 / 2 * b := by
  refine double_factorial_rec (1 / 2) ?_
  rintro ⟨n, -, -, hn⟩
  have h2 : (2 : ℝ) * n = 1 := by linarith
  have h2' : (2 : ℤ) * n = 1 := by exact_mod_cast h2
  omega

/-- C10: for every real `z` that is not a negative integer, both `double_factorial z`
and `double_factorial (z - 1)` return without raising, `z + 1` is not a pole of the
Gamma routine, and the product of the two values is `Gamma(z + 1)`. -/
theorem double_factorial_mul_pred (z : ℝ) (hz : ¬ ∃ n : ℤ, n < 0 ∧ z = n) :
    ∃ a b : ℝ, double_factorial z = Except.ok a ∧ double_factorial (z - 1) = Except.ok b ∧
      a * b = Real.Gamma (z + 1) ∧ tgamma (z + 1) = Except.ok (a * b) := by
  have h1 : ¬ isNonPosInt (z / 2 + 1) := by
    rw [pole_iff_negEven]
    rintro ⟨n, hn, -, hzn⟩
    exact hz ⟨n, hn, hzn⟩
  have h2 : ¬ isNonPosInt ((z - 1) / 2 + 1) := by
    rw [pole_sub_one_iff]
    rintro ⟨n, hn, -, hzn⟩
    exact hz ⟨n, hn, hzn⟩
  have h3 : ¬ isNonPosInt (z + 1) := by
    rw [isNonPosInt_iff_int]
    rintro ⟨n, hn, hzn⟩
    refine hz ⟨n - 1, by omega, ?_⟩
    push_cast
    linarith
  refine ⟨formulaValue z, formulaValue (z - 1), double_factorial_ok h1,
    double_factorial_ok h2, formulaValue_mul_pred z, ?_⟩
  unfold tgamma
  simp only [h3, if_false]
  rw [formulaValue_mul_pred]

/-- Witness of C10 at `z = 0`. -/
theorem double_factorial_mul_pred_witness :
    ∃ a b : ℝ, double_factorial 0 = Except.ok a ∧ double_factorial (0 - 1) = Except.ok b ∧
      a * b = Real.Gamma (0 + 1) ∧ tgamma (0 + 1) = Except.ok (a * b) := by
  refine double_factorial_mul_pred 0 ?_
  rintro ⟨n, hn, h0⟩
  have : n = 0 := by exact_mod_cast h0.symm
  omega

/-- C11: for every real `z > -2` the call returns a strictly positive value: the Gamma
argument `0.5 z + 1` is positive, so the Gamma routine returns a positive value, and
the two power factors, having the positive bases `2` and `pi`, are positive. -/
theorem double_factorial_pos (z : ℝ) (hz : -2 < z) :
    (∃ v : ℝ, double_factorial z = Except.ok v ∧ 0 < v) ∧
      0 < (2.0 : ℝ) ^ ((1.0 + (2.0 * z) - Real.cos (Real.pi * z)) * 0.25) ∧
      0 < Real.pi ^ ((Real.cos (Real.pi * z) - 1.0) * 0.25) ∧
      0 < (0.5 * z) + 1.0 ∧
      ∃ g : ℝ, tgamma ((0.5 * z) + 1.0) = Except.ok g ∧ 0 < g := by
  have hpos : (0 : ℝ) < z / 2 + 1 := by linarith
  have hnp : ¬ isNonPosInt (z / 2 + 1) := not_isNonPosInt_of_pos hpos
  have hG : 0 < Real.Gamma (z / 2 + 1) := Real.Gamma_pos_of_pos hpos
  refine ⟨⟨formulaValue z, double_factorial_ok hnp, ?_⟩, ?_, ?_, ?_, ?_⟩
  · unfold formulaValue
    exact mul_pos (mul_pos (Real.rpow_pos_of_pos two_pos _)
      (Real.rpow_pos_of_pos Real.pi_pos _)) hG
  · exact Real.rpow_pos_of_pos (by norm_num) _
  · exact Real.rpow_pos_of_pos Real.pi_pos _
  · rw [gammaArg_eq]; exact hpos
  · rw [gammaArg_eq]
    refine ⟨Real.Gamma (z / 2 + 1), ?_, hG⟩
    unfold tgamma
    simp only [hnp, if_false]

/-- Witness of C11 at the non-integer `z = -3/2`. -/
theorem double_factorial_pos_witness :
    (∃ v : ℝ, double_factorial (-3 / 2) = Except.ok v ∧ 0 < v) ∧
      0 < (2.0 : ℝ) ^ ((1.0 + (2.0 * (-3 / 2 : ℝ)) - Real.cos (Real.pi * (-3 / 2))) * 0.25) ∧
      0 < Real.pi ^ ((Real.cos (Real.pi * (-3 / 2)) - 1.0) * 0.25) ∧
      0 < (0.5 * (-3 / 2 : ℝ)) + 1.0 ∧
      ∃ g : ℝ, tgamma ((0.5 * (-3 / 2 : ℝ)) + 1.0) = Except.ok g ∧ 0 < g :=
  double_factorial_pos (-3 / 2) (by norm_num)

end DoubleFactorials
